import Mathlib

/-!
# Verification of the Huffman + Hamming(7,4) coding pipeline

Shallow embedding of `information_project.py`: symbol probabilities,
Huffman tree construction over Python's `heapq` priority queue, code-table
derivation, Huffman encode/decode, and the Hamming(7,4) channel coder with
padding bookkeeping.  Bitstreams are modelled as `List Char` of `'0'`/`'1'`
characters exactly as the Python code manipulates strings; probabilities are
modelled as `ℚ` (the Python floats are only compared and added; every claim
checked concretely involves exactly representable values).  Python `dict`s
are modelled as insertion-ordered association lists with overwrite-on-update
semantics.  Fallible operations (`KeyError`, `ValueError`, attribute access
on `None`) are modelled with `Option`/`Except`.
-/

set_option maxHeartbeats 1600000

namespace InfoProj

/-- `HuffmanNode` from the source: fields `symbol` (None for internal
nodes), `prob`, `left`, `right` (children may be absent). -/
inductive HuffmanNode : Type where
  | mk (symbol : Option Char) (prob : ℚ) (left : Option HuffmanNode)
      (right : Option HuffmanNode)

def HuffmanNode.symbol : HuffmanNode → Option Char
  | .mk s _ _ _ => s

def HuffmanNode.prob : HuffmanNode → ℚ
  | .mk _ p _ _ => p

def HuffmanNode.left : HuffmanNode → Option HuffmanNode
  | .mk _ _ l _ => l

def HuffmanNode.right : HuffmanNode → Option HuffmanNode
  | .mk _ _ _ r => r

instance : Inhabited HuffmanNode := ⟨.mk none 0 none none⟩

/-- `HuffmanNode.__lt__`: comparison used by the heap, on `prob` only. -/
def nodeLt (a b : HuffmanNode) : Bool := a.prob < b.prob

/-! ## Python `heapq` (as used: `heapify`, `heappush`, `heappop`)

Faithful functional translation of CPython's `heapq` sift routines; the
mutable list is threaded explicitly, `heap[i]` reads become `getD` (all
reads are in bounds in every use below). -/

/-- CPython `heapq._siftdown(heap, startpos, pos)` with `newitem = heap[pos]`
already read out; `(pos - 1) / 2` is `parentpos`. -/
def siftdownAux {α : Type} [Inhabited α] (lt : α → α → Bool) (heap : List α)
    (startpos pos : Nat) (newitem : α) : List α :=
  if _h : startpos < pos then
    if lt newitem (heap.getD ((pos - 1) / 2) default) then
      siftdownAux lt (heap.set pos (heap.getD ((pos - 1) / 2) default))
        startpos ((pos - 1) / 2) newitem
    else
      heap.set pos newitem
  else
    heap.set pos newitem
termination_by pos
decreasing_by
  exact Nat.lt_of_le_of_lt (Nat.div_le_self _ _) (Nat.sub_lt (by omega) (by omega))

/-- The child index chosen by one iteration of CPython `heapq._siftup` at
`pos`: the right child `2*pos+2` when it exists and the left child does not
compare strictly less, else the left child `2*pos+1`. -/
def siftupChild {α : Type} [Inhabited α] (lt : α → α → Bool) (heap : List α)
    (pos : Nat) : Nat :=
  if 2 * pos + 2 < heap.length ∧
      lt (heap.getD (2 * pos + 1) default) (heap.getD (2 * pos + 2) default)
        = false then
    2 * pos + 2
  else 2 * pos + 1

/-- CPython `heapq._siftup(heap, pos)` body after reading
`newitem = heap[pos]`; `startpos` is the initial `pos`, `heap.length` is
`endpos` and `2 * pos + 1` is `childpos`. -/
def siftupAux {α : Type} [Inhabited α] (lt : α → α → Bool) (heap : List α)
    (startpos pos : Nat) (newitem : α) : List α :=
  if _h : 2 * pos + 1 < heap.length then
    siftupAux lt (heap.set pos (heap.getD (siftupChild lt heap pos) default))
      startpos (siftupChild lt heap pos) newitem
  else
    siftdownAux lt (heap.set pos newitem) startpos pos newitem
termination_by heap.length - pos
decreasing_by
  simp only [List.length_set, siftupChild]
  split <;> omega

/-- CPython `heapq._siftup(heap, pos)`. -/
def siftup {α : Type} [Inhabited α] (lt : α → α → Bool) (heap : List α)
    (pos : Nat) : List α :=
  siftupAux lt heap pos pos (heap.getD pos default)

/-- The `for i in reversed(range(n//2))` loop of `heapq.heapify`. -/
def heapifyAux {α : Type} [Inhabited α] (lt : α → α → Bool) (heap : List α) :
    Nat → List α
  | 0 => heap
  | i + 1 => heapifyAux lt (siftup lt heap i) i

/-- CPython `heapq.heapify`. -/
def heapify {α : Type} [Inhabited α] (lt : α → α → Bool) (heap : List α) :
    List α :=
  heapifyAux lt heap (heap.length / 2)

/-- CPython `heapq.heappush`. -/
def heappush {α : Type} [Inhabited α] (lt : α → α → Bool) (heap : List α)
    (item : α) : List α :=
  let h2 := heap ++ [item]
  siftdownAux lt h2 0 (h2.length - 1) (h2.getD (h2.length - 1) default)

/-- CPython `heapq.heappop`, returning `(popped, new heap)`; the Python
version raises on an empty list, which never happens at any call site. -/
def heappop {α : Type} [Inhabited α] (lt : α → α → Bool) (heap : List α) :
    α × List α :=
  let lastelt := heap.getLastD default
  let rest := heap.dropLast
  if rest.isEmpty then (lastelt, rest)
  else
    let returnitem := rest.getD 0 default
    (returnitem, siftup lt (rest.set 0 lastelt) 0)

theorem siftdownAux_length {α : Type} [Inhabited α] (lt : α → α → Bool)
    (heap : List α) (startpos pos : Nat) (newitem : α) :
    (siftdownAux lt heap startpos pos newitem).length = heap.length := by
  induction heap, startpos, pos, newitem using siftdownAux.induct lt with
  | case1 heap startpos pos newitem h hlt ih =>
    rw [siftdownAux, dif_pos h, if_pos hlt]
    simpa using ih
  | case2 heap startpos pos newitem h hlt =>
    rw [siftdownAux, dif_pos h, if_neg hlt]
    simp
  | case3 heap startpos pos newitem h =>
    rw [siftdownAux, dif_neg h]
    simp

theorem siftupAux_length {α : Type} [Inhabited α] (lt : α → α → Bool)
    (heap : List α) (startpos pos : Nat) (newitem : α) :
    (siftupAux lt heap startpos pos newitem).length = heap.length := by
  induction heap, startpos, pos, newitem using siftupAux.induct lt with
  | case1 heap startpos pos newitem h ih =>
    rw [siftupAux, dif_pos h]
    simpa using ih
  | case2 heap startpos pos newitem h =>
    rw [siftupAux, dif_neg h]
    simp [siftdownAux_length]

theorem siftup_length {α : Type} [Inhabited α] (lt : α → α → Bool)
    (heap : List α) (pos : Nat) :
    (siftup lt heap pos).length = heap.length := by
  simp [siftup, siftupAux_length]

theorem heappush_length {α : Type} [Inhabited α] (lt : α → α → Bool)
    (heap : List α) (item : α) :
    (heappush lt heap item).length = heap.length + 1 := by
  simp [heappush, siftdownAux_length]

theorem heappop_length {α : Type} [Inhabited α] (lt : α → α → Bool)
    (heap : List α) :
    (heappop lt heap).2.length = heap.length - 1 := by
  unfold heappop
  by_cases h : heap.dropLast.isEmpty
  · simp [h, List.length_dropLast]
  · simp [h, siftup_length, List.length_dropLast]

/-! ### Fuel-indexed twins of the sift routines

The recursions above are by well-founded measure, which the kernel does not
unfold; the following twins recurse structurally on an explicit bound and
are proved equal to them, so that concrete runs can be evaluated by
`rfl`/`decide`. -/

/-- Fuel twin of `siftdownAux` (equal whenever `pos < fuel`). -/
def siftdownF {α : Type} [Inhabited α] (lt : α → α → Bool) :
    Nat → List α → Nat → Nat → α → List α
  | 0, heap, _, pos, newitem => heap.set pos newitem
  | fuel + 1, heap, startpos, pos, newitem =>
    if startpos < pos then
      if lt newitem (heap.getD ((pos - 1) / 2) default) then
        siftdownF lt fuel (heap.set pos (heap.getD ((pos - 1) / 2) default))
          startpos ((pos - 1) / 2) newitem
      else heap.set pos newitem
    else heap.set pos newitem

theorem siftdownF_eq {α : Type} [Inhabited α] (lt : α → α → Bool) :
    ∀ (fuel : Nat) (heap : List α) (startpos pos : Nat) (newitem : α),
      pos < fuel →
      siftdownF lt fuel heap startpos pos newitem =
        siftdownAux lt heap startpos pos newitem := by
  intro fuel
  induction fuel with
  | zero => intro heap sp pos ni h; exact absurd h (Nat.not_lt_zero _)
  | succ f ih =>
    intro heap sp pos ni h
    rw [siftdownF, siftdownAux]
    by_cases h1 : sp < pos
    · rw [if_pos h1, dif_pos h1]
      by_cases h2 : lt ni (heap.getD ((pos - 1) / 2) default) = true
      · rw [if_pos h2, if_pos h2, ih]
        have := Nat.div_le_self (pos - 1) 2
        omega
      · rw [if_neg h2, if_neg h2]
    · rw [if_neg h1, dif_neg h1]

/-- Fuel twin of `siftupAux` (equal whenever `heap.length - pos < fuel`). -/
def siftupF {α : Type} [Inhabited α] (lt : α → α → Bool) :
    Nat → List α → Nat → Nat → α → List α
  | 0, heap, _, _, _ => heap
  | fuel + 1, heap, startpos, pos, newitem =>
    if 2 * pos + 1 < heap.length then
      siftupF lt fuel
        (heap.set pos (heap.getD (siftupChild lt heap pos) default))
        startpos (siftupChild lt heap pos) newitem
    else
      siftdownF lt (pos + 1) (heap.set pos newitem) startpos pos newitem

theorem siftupChild_gt {α : Type} [Inhabited α] (lt : α → α → Bool)
    (heap : List α) (pos : Nat) :
    2 * pos + 1 ≤ siftupChild lt heap pos := by
  unfold siftupChild
  split <;> omega

theorem siftupF_eq {α : Type} [Inhabited α] (lt : α → α → Bool) :
    ∀ (fuel : Nat) (heap : List α) (startpos pos : Nat) (newitem : α),
      heap.length - pos < fuel →
      siftupF lt fuel heap startpos pos newitem =
        siftupAux lt heap startpos pos newitem := by
  intro fuel
  induction fuel with
  | zero => intro heap sp pos ni h; exact absurd h (Nat.not_lt_zero _)
  | succ f ih =>
    intro heap sp pos ni h
    rw [siftupF, siftupAux]
    by_cases h1 : 2 * pos + 1 < heap.length
    · rw [if_pos h1, dif_pos h1, ih]
      have := siftupChild_gt lt heap pos
      simp only [List.length_set]
      omega
    · rw [if_neg h1, dif_neg h1,
        siftdownF_eq lt (pos + 1) _ _ _ _ (Nat.lt_succ_self pos)]

/-- Executable `siftup`. -/
def siftupE {α : Type} [Inhabited α] (lt : α → α → Bool) (heap : List α)
    (pos : Nat) : List α :=
  siftupF lt (heap.length + 1) heap pos pos (heap.getD pos default)

theorem siftupE_eq {α : Type} [Inhabited α] (lt : α → α → Bool)
    (heap : List α) (pos : Nat) : siftupE lt heap pos = siftup lt heap pos :=
  siftupF_eq lt _ _ _ _ _ (by omega)

/-- Executable `heapify`. -/
def heapifyAuxE {α : Type} [Inhabited α] (lt : α → α → Bool) (heap : List α) :
    Nat → List α
  | 0 => heap
  | i + 1 => heapifyAuxE lt (siftupE lt heap i) i

theorem heapifyAuxE_eq {α : Type} [Inhabited α] (lt : α → α → Bool) :
    ∀ (n : Nat) (heap : List α),
      heapifyAuxE lt heap n = heapifyAux lt heap n := by
  intro n
  induction n with
  | zero => intro heap; rfl
  | succ i ih => intro heap; rw [heapifyAuxE, heapifyAux, siftupE_eq, ih]

/-- Executable `heapify`. -/
def heapifyE {α : Type} [Inhabited α] (lt : α → α → Bool) (heap : List α) :
    List α :=
  heapifyAuxE lt heap (heap.length / 2)

theorem heapifyE_eq {α : Type} [Inhabited α] (lt : α → α → Bool)
    (heap : List α) : heapifyE lt heap = heapify lt heap :=
  heapifyAuxE_eq lt _ heap

/-- Executable `heappush`. -/
def heappushE {α : Type} [Inhabited α] (lt : α → α → Bool) (heap : List α)
    (item : α) : List α :=
  siftdownF lt (heap ++ [item]).length (heap ++ [item]) 0
    ((heap ++ [item]).length - 1)
    ((heap ++ [item]).getD ((heap ++ [item]).length - 1) default)

theorem heappushE_eq {α : Type} [Inhabited α] (lt : α → α → Bool)
    (heap : List α) (item : α) :
    heappushE lt heap item = heappush lt heap item := by
  unfold heappushE heappush
  rw [siftdownF_eq]
  simp

/-- Executable `heappop`. -/
def heappopE {α : Type} [Inhabited α] (lt : α → α → Bool) (heap : List α) :
    α × List α :=
  let lastelt := heap.getLastD default
  let rest := heap.dropLast
  if rest.isEmpty then (lastelt, rest)
  else
    let returnitem := rest.getD 0 default
    (returnitem, siftupE lt (rest.set 0 lastelt) 0)

theorem heappopE_eq {α : Type} [Inhabited α] (lt : α → α → Bool)
    (heap : List α) : heappopE lt heap = heappop lt heap := by
  simp only [heappopE, heappop, siftupE_eq]

/-! ## Part 1: symbol probabilities -/

/-- First-occurrence order of the distinct symbols of a text: the key order
of `collections.Counter(text)`. -/
def uniqueSymbols (text : List Char) : List Char :=
  text.foldl (fun acc c => if c ∈ acc then acc else acc ++ [c]) []

/-- `compute_symbol_probabilities`: empty text gives an empty mapping,
otherwise `symbol -> count / total` in first-occurrence order. -/
def compute_symbol_probabilities (text : List Char) : List (Char × ℚ) :=
  if text = [] then []
  else (uniqueSymbols text).map fun c =>
    (c, (text.count c : ℚ) / (text.length : ℚ))

/-! ## Huffman tree construction -/

/-- The `while len(heap) > 1` merge loop of `build_huffman_tree`: `n1` is
`(heappop heap).1`, `n2` is the first component of a pop of the remaining
heap, and `parent` carries their weight sum with `n1` on the left and `n2`
on the right. -/
def buildLoop (heap : List HuffmanNode) : HuffmanNode :=
  if _h : 1 < heap.length then
    buildLoop (heappush nodeLt (heappop nodeLt (heappop nodeLt heap).2).2
      (.mk none
        ((heappop nodeLt heap).1.prob +
          (heappop nodeLt (heappop nodeLt heap).2).1.prob)
        (some (heappop nodeLt heap).1)
        (some (heappop nodeLt (heappop nodeLt heap).2).1)))
  else
    heap.getD 0 default
termination_by heap.length
decreasing_by
  have h1 := heappop_length nodeLt heap
  have h2 := heappop_length nodeLt (heappop nodeLt heap).2
  rw [heappush_length]
  omega

/-- `build_huffman_tree`: leaves from the mapping in insertion order, then
`heapify`, the single-symbol wrapper, and the merge loop. -/
def build_huffman_tree (probabilities : List (Char × ℚ)) :
    Option HuffmanNode :=
  let heap0 : List HuffmanNode :=
    probabilities.map fun sp => .mk (some sp.1) sp.2 none none
  if heap0.isEmpty then none
  else
    let heap1 := heapify nodeLt heap0
    if heap1.length = 1 then
      let only := heap1.getD 0 default
      some (.mk none only.prob (some only) none)
    else
      some (buildLoop heap1)

/-- Fuel twin of `buildLoop` (equal whenever `heap.length ≤ fuel`). -/
def buildLoopF : Nat → List HuffmanNode → HuffmanNode
  | 0, heap => heap.getD 0 default
  | fuel + 1, heap =>
    if 1 < heap.length then
      buildLoopF fuel
        (heappushE nodeLt (heappopE nodeLt (heappopE nodeLt heap).2).2
          (.mk none
            ((heappopE nodeLt heap).1.prob +
              (heappopE nodeLt (heappopE nodeLt heap).2).1.prob)
            (some (heappopE nodeLt heap).1)
            (some (heappopE nodeLt (heappopE nodeLt heap).2).1)))
    else heap.getD 0 default

theorem buildLoopF_eq :
    ∀ (fuel : Nat) (heap : List HuffmanNode), heap.length ≤ fuel →
      buildLoopF fuel heap = buildLoop heap := by
  intro fuel
  induction fuel with
  | zero =>
    intro heap h
    rw [buildLoopF, buildLoop, dif_neg (by omega)]
  | succ f ih =>
    intro heap h
    rw [buildLoopF, buildLoop]
    by_cases h1 : 1 < heap.length
    · rw [if_pos h1, dif_pos h1]
      simp only [heappopE_eq, heappushE_eq]
      rw [ih]
      have e1 := heappop_length nodeLt heap
      have e2 := heappop_length nodeLt (heappop nodeLt heap).2
      rw [heappush_length]
      omega
    · rw [if_neg h1, dif_neg h1]

/-- Executable `build_huffman_tree`. -/
def build_huffman_treeE (probabilities : List (Char × ℚ)) :
    Option HuffmanNode :=
  let heap0 : List HuffmanNode :=
    probabilities.map fun sp => .mk (some sp.1) sp.2 none none
  if heap0.isEmpty then none
  else
    let heap1 := heapifyE nodeLt heap0
    if heap1.length = 1 then
      let only := heap1.getD 0 default
      some (.mk none only.prob (some only) none)
    else
      some (buildLoopF heap1.length heap1)

theorem build_huffman_treeE_eq (probabilities : List (Char × ℚ)) :
    build_huffman_tree probabilities = build_huffman_treeE probabilities := by
  simp only [build_huffman_tree, build_huffman_treeE, heapifyE_eq]
  rw [buildLoopF_eq _ _ (Nat.le_refl _)]

/-! ## Code table derivation -/

/-- The write sequence performed by `traverse` inside
`build_huffman_codes`: a node with a symbol records
`prefix if prefix else "0"` and stops; otherwise recurse left with `+"0"`
then right with `+"1"` (absent children are skipped). -/
def traverse : HuffmanNode → List Char → List (Char × List Char)
  | .mk (some s) _ _ _, pre => [(s, if pre = [] then ['0'] else pre)]
  | .mk none _ l r, pre =>
    (match l with
     | some t => traverse t (pre ++ ['0'])
     | none => []) ++
    (match r with
     | some t => traverse t (pre ++ ['1'])
     | none => [])

/-- Python `dict` update `d[k] = v`: overwrite in place if the key exists,
else append. -/
def dictSet {α : Type} (d : List (Char × α)) (k : Char) (v : α) :
    List (Char × α) :=
  if (d.find? fun kv => kv.1 = k).isSome then
    d.map fun kv => if kv.1 = k then (k, v) else kv
  else
    d ++ [(k, v)]

/-- Python `dict` lookup `d[k]` (keys are unique, so first match). -/
def dictGet {α : Type} : List (Char × α) → Char → Option α
  | [], _ => none
  | (k2, v) :: rest, k => if k2 = k then some v else dictGet rest k

/-- `build_huffman_codes`: empty table for a `None` root, else the `codes`
dict accumulated by `traverse`. -/
def build_huffman_codes (root : Option HuffmanNode) :
    List (Char × List Char) :=
  match root with
  | none => []
  | some t => (traverse t []).foldl (fun d kv => dictSet d kv.1 kv.2) []

/-! ## Huffman encode / decode -/

/-- `huffman_encode`: concatenation of `codes[ch]`; a missing symbol is a
`KeyError`, modelled as `none`. -/
def huffman_encode (text : List Char) (codes : List (Char × List Char)) :
    Option (List Char) :=
  match text with
  | [] => some []
  | ch :: rest =>
    match dictGet codes ch with
    | none => none
    | some c => (huffman_encode rest codes).map fun bs => c ++ bs

/-- The bit-consuming loop of `huffman_decode`: returns the emitted symbols
and the node the walk ends on; stepping to an absent child is Python's
`AttributeError` on `None`, modelled as `none`. -/
def decodeLoop (root : HuffmanNode) :
    List Char → HuffmanNode → Option (List Char × HuffmanNode)
  | [], node => some ([], node)
  | b :: bs, node =>
    match (if b = '0' then node.left else node.right) with
    | none => none
    | some n2 =>
      match n2.symbol with
      | some s => (decodeLoop root bs root).map fun r => (s :: r.1, r.2)
      | none => decodeLoop root bs n2

/-- `huffman_decode`: empty result for a `None` root, else run the loop from
the root and keep the emitted symbols. -/
def huffman_decode (bits : List Char) (root : Option HuffmanNode) :
    Option (List Char) :=
  match root with
  | none => some []
  | some r => (decodeLoop r bits r).map fun p => p.1

/-! ## Hamming(7,4) -/

/-- Python `int(c)` on a digit character. -/
def charVal (c : Char) : Nat := c.toNat - 48

/-- `_int_list_to_bitstr`. -/
def intListToBitstr (bits : List Nat) : List Char :=
  bits.map fun b => if b ≠ 0 then '1' else '0'

/-- `_bitstr_to_int_list`. -/
def bitstrToIntList (bits : List Char) : List Nat :=
  bits.map fun b => if b = '1' then 1 else 0

/-- The block loop of `hamming_7_4_encode`: the input length is always a
multiple of 4 at the call site (after padding). -/
def encodeBlocks : List Char → List Nat
  | c1 :: c2 :: c3 :: c4 :: rest =>
    let d1 := charVal c1
    let d2 := charVal c2
    let d3 := charVal c3
    let d4 := charVal c4
    let p1 := (d1 ^^^ d2) ^^^ d4
    let p2 := (d1 ^^^ d3) ^^^ d4
    let p4 := (d2 ^^^ d3) ^^^ d4
    p1 :: p2 :: d1 :: p4 :: d2 :: d3 :: d4 :: encodeBlocks rest
  | _ => []

/-- `hamming_7_4_encode`: returns the coded bit string and `pad_bits`. -/
def hamming_7_4_encode (bitstring : List Char) : List Char × Nat :=
  if bitstring = [] then ([], 0)
  else
    let pad_bits := (4 - bitstring.length % 4) % 4
    let padded := bitstring ++ List.replicate pad_bits '0'
    (intListToBitstr (encodeBlocks padded), pad_bits)

/-- The block loop of `hamming_7_4_decode`: syndrome, in-block correction,
extraction of data bits at positions 3,5,6,7.  The in-place flip at
`i + error_pos - 1` always lands inside the current 7-bit block, so the
per-block formulation is exact. -/
def decodeBlocks : List Nat → List Nat
  | b1 :: b2 :: b3 :: b4 :: b5 :: b6 :: b7 :: rest =>
    let s1 := ((b1 ^^^ b3) ^^^ b5) ^^^ b7
    let s2 := ((b2 ^^^ b3) ^^^ b6) ^^^ b7
    let s4 := ((b4 ^^^ b5) ^^^ b6) ^^^ b7
    let error_pos := s1 + (s2 <<< 1) + (s4 <<< 2)
    let blk := [b1, b2, b3, b4, b5, b6, b7]
    let blk2 :=
      if error_pos ≠ 0 then
        blk.set (error_pos - 1) ((blk.getD (error_pos - 1) 0) ^^^ 1)
      else blk
    blk2.getD 2 0 :: blk2.getD 4 0 :: blk2.getD 5 0 :: blk2.getD 6 0 ::
      decodeBlocks rest
  | _ => []

/-- `hamming_7_4_decode`: empty input short-circuits; a length not divisible
by 7 raises `ValueError` (modelled as `.error`); otherwise decode blocks and
strip the last `pad_bits` data bits when `pad_bits > 0`
(`data_bits[:-pad_bits]`). -/
def hamming_7_4_decode (encoded_bits : List Char) (pad_bits : Int) :
    Except String (List Char) :=
  if encoded_bits = [] then .ok []
  else if encoded_bits.length % 7 ≠ 0 then
    .error "Hamming(7,4) encoded length must be a multiple of 7."
  else
    let bits := bitstrToIntList encoded_bits
    let data_bits := decodeBlocks bits
    let data_bits2 :=
      if pad_bits > 0 then data_bits.take (data_bits.length - pad_bits.toNat)
      else data_bits
    .ok (intListToBitstr data_bits2)

/-- Corrupt one position of a bit string: replace the character at index `i`
by its flipped value (`'1'` becomes `'0'` and anything else `'1'`). -/
def flipBitAt (l : List Char) (i : Nat) : List Char :=
  l.set i (if l.getD i '0' = '1' then '0' else '1')

/-! ## Spec-side model of the tie-break rule (for comparison only)

The spec prescribes that equal-weight nodes be ordered by a monotonically
increasing insertion sequence number assigned at queue-insertion time.  The
source has no such sequence number; the following model implements the
spec's words so the two constructions can be compared. -/

/-- Modelled from the spec: the entry of the queue that is minimal for the
lexicographic order (weight, insertion sequence number). -/
def seqMinEntry : List (HuffmanNode × Nat) → Option (HuffmanNode × Nat)
  | [] => none
  | e :: rest =>
    match seqMinEntry rest with
    | none => some e
    | some m =>
      if e.1.prob < m.1.prob ∨ (e.1.prob = m.1.prob ∧ e.2 < m.2) then some e
      else some m

/-- Modelled from the spec: remove the entry with sequence number `n`. -/
def seqRemove (q : List (HuffmanNode × Nat)) (n : Nat) :
    List (HuffmanNode × Nat) :=
  q.eraseP fun x => x.2 == n

/-- Modelled from the spec: repeatedly merge the two minimal entries (by
weight, ties by insertion sequence number), giving each new internal node
the next sequence number; `fuel` bounds the iteration count. -/
def seqTieLoop : Nat → List (HuffmanNode × Nat) → Nat → Option HuffmanNode
  | 0, _, _ => none
  | _ + 1, [(t, _)], _ => some t
  | fuel + 1, q, next =>
    match seqMinEntry q with
    | none => none
    | some m1 =>
      match seqMinEntry (seqRemove q m1.2) with
      | none => none
      | some m2 =>
        seqTieLoop fuel
          (seqRemove (seqRemove q m1.2) m2.2 ++
            [(HuffmanNode.mk none (m1.1.prob + m2.1.prob) (some m1.1)
                (some m2.1), next)])
          (next + 1)

/-- Modelled from the spec: Huffman construction whose priority queue breaks
weight ties by a monotonically increasing insertion sequence number (leaves
numbered in mapping order, merged nodes numbered afterwards in creation
order); single-symbol mappings get the same lone-child wrapper the source
builds. -/
def build_huffman_tree_seqTie (p : List (Char × ℚ)) : Option HuffmanNode :=
  let q := (p.map fun sp => HuffmanNode.mk (some sp.1) sp.2 none none).enum
  match q with
  | [] => none
  | [(_, t)] => some (.mk none t.prob (some t) none)
  | _ => seqTieLoop q.length (q.map fun it => (it.2, it.1)) q.length

/-! ## Specification-side notions used to state the Huffman claims -/

mutual

/-- The symbols recorded by `build_huffman_codes`'s traversal of a tree: a
node carrying a symbol contributes exactly that symbol (the traversal stops
there); a symbol-less node contributes its children's symbols, left before
right. -/
def treeSyms : HuffmanNode → List Char
  | .mk (some s) _ _ _ => [s]
  | .mk none _ l r => optTreeSyms l ++ optTreeSyms r

/-- `treeSyms` through an optional child. -/
def optTreeSyms : Option HuffmanNode → List Char
  | none => []
  | some t => treeSyms t

end

/-- All symbols carried by the trees of a heap, in heap order. -/
def heapSyms (heap : List HuffmanNode) : List Char :=
  (heap.map treeSyms).flatten

/-- `pathLeadsTo t d s`: following the bit path `d` from `t` (left on `'0'`,
right otherwise, as `huffman_decode` steps) passes only through symbol-less
nodes with the required children present and ends at a node carrying `s`. -/
def pathLeadsTo : HuffmanNode → List Char → Char → Prop
  | t, [], s => t.symbol = some s
  | t, x :: xs, s =>
    t.symbol = none ∧
    ∃ c, (if x = '0' then t.left else t.right) = some c ∧ pathLeadsTo c xs s

/-! # Theorems -/

/-! ## C10: empty Hamming-decode input short-circuits -/

/-- C10: for every `pad_bits` value `p` (including `p > 0`),
`hamming_7_4_decode "" p` returns the empty bitstream with no error and no
padding stripped: the empty-input check precedes both the length check and
the padding removal. -/
theorem hamming_decode_empty_input (p : Int) :
    hamming_7_4_decode [] p = .ok [] := rfl

/-! ## C6: the length-mismatch error is raised exactly off multiples of 7 -/

/-- C6: `hamming_7_4_decode coded_bits pad_bits` raises the length-mismatch
error if and only if `len(coded_bits)` is not a multiple of 7 (the empty
input, of length 0, is a multiple of 7 and short-circuits to success); when
it raises, no output is produced (`Except.error` carries none). -/
theorem hamming_decode_error_iff_length (coded_bits : List Char)
    (pad_bits : Int) :
    (∃ e, hamming_7_4_decode coded_bits pad_bits = .error e) ↔
      coded_bits.length % 7 ≠ 0 := by
  unfold hamming_7_4_decode
  by_cases h0 : coded_bits = []
  · subst h0; simp
  · by_cases h7 : coded_bits.length % 7 = 0 <;> simp [h0, h7]

/-! ## C7: single-symbol mapping gives a lone-child internal root and
code "0" -/

/-- C7: for every mapping with exactly one symbol `s`, `build_huffman_tree`
returns an internal (symbol-less) node whose only child is the lone leaf,
and the derived code of `s` is `"0"`, not the empty string. -/
theorem single_symbol_tree_and_code (s : Char) (q : ℚ) :
    build_huffman_tree [(s, q)] =
      some (.mk none q (some (.mk (some s) q none none)) none) ∧
    dictGet (build_huffman_codes (build_huffman_tree [(s, q)])) s =
      some ['0'] := by
  constructor
  · simp [build_huffman_tree, heapify, heapifyAux, HuffmanNode.prob]
  · simp [build_huffman_tree, heapify, heapifyAux, build_huffman_codes,
      traverse, dictSet, dictGet]

/-! ## C8: the tie-break rule -/

/-- C8 counterexample: on the two-symbol equal-weight mapping
`[a ↦ 1, b ↦ 1]` the source's heap-based construction assigns `'a'` the
code `"1"` (Python's `heapify` moves the later-inserted `b` to the root on
the tie), while the spec's insertion-sequence tie-break pops `a` first and
assigns it `"0"`: equal-weight nodes are not ordered by any insertion
sequence number. -/
theorem heap_tiebreak_differs_from_seq_tiebreak :
    dictGet
        (build_huffman_codes
          (build_huffman_tree [('a', 1), ('b', 1)])) 'a' =
      some ['1'] ∧
    dictGet
        (build_huffman_codes
          (build_huffman_tree_seqTie [('a', 1), ('b', 1)])) 'a' =
      some ['0'] := by
  rw [build_huffman_treeE_eq]
  constructor <;> rfl

/-- C8 amended: `HuffmanNode.__lt__` compares weights only, so two
equal-weight nodes are unordered by the comparison (no insertion sequence
number takes part in it); the heap's behaviour on ties is fixed by its
array mechanics alone, and the construction is still a deterministic
function of the mapping and its insertion order. -/
theorem nodeLt_ignores_ties (a b : HuffmanNode) (h : a.prob = b.prob) :
    nodeLt a b = false ∧ nodeLt b a = false := by
  simp [nodeLt, h]

theorem nodeLt_ignores_ties_witness :
    nodeLt (.mk (some 'a') 1 none none) (.mk (some 'b') 1 none none)
        = false ∧
    nodeLt (.mk (some 'b') 1 none none) (.mk (some 'a') 1 none none)
        = false :=
  nodeLt_ignores_ties _ _ rfl

/-! ## C5: the concrete "aaab" scenario -/

theorem aaab_probabilities :
    compute_symbol_probabilities ['a', 'a', 'a', 'b'] =
      [('a', mkRat 3 4), ('b', mkRat 1 4)] := by
  have h1 : uniqueSymbols ['a', 'a', 'a', 'b'] = ['a', 'b'] := by decide
  unfold compute_symbol_probabilities
  rw [if_neg (by decide), h1]
  norm_num [List.count_cons, Rat.mkRat_eq_div,
    if_neg (show ¬ ('b' = 'a') by decide), if_neg (show ¬ ('a' = 'b') by decide)]

theorem build_aaab :
    build_huffman_tree [('a', mkRat 3 4), ('b', mkRat 1 4)] =
      some (.mk none (mkRat 1 4 + mkRat 3 4)
        (some (.mk (some 'b') (mkRat 1 4) none none))
        (some (.mk (some 'a') (mkRat 3 4) none none))) := by
  rw [build_huffman_treeE_eq]
  rfl

/-- C5 counterexample: for the source `"aaab"` the derived code of `'a'` is
`"1"` (and of `'b'` is `"0"`), not `"0"`/`"1"` as claimed, and the encoded
bitstream is `"1110"`, not `"0001"`. -/
theorem aaab_codes_counterexample :
    dictGet
        (build_huffman_codes
          (build_huffman_tree
            (compute_symbol_probabilities ['a', 'a', 'a', 'b']))) 'a' =
      some ['1'] ∧
    huffman_encode ['a', 'a', 'a', 'b']
        (build_huffman_codes
          (build_huffman_tree
            (compute_symbol_probabilities ['a', 'a', 'a', 'b']))) ≠
      some ['0', '0', '0', '1'] := by
  rw [aaab_probabilities, build_aaab]
  constructor
  · rfl
  · decide

/-- C5 amended: for the source `"aaab"`, the probabilities are
`a ↦ 3/4`, `b ↦ 1/4`; the derived table maps `b ↦ "0"` and `a ↦ "1"` (the
lighter leaf `b` becomes the left child); the encoded bitstream is
`"1110"`; and `hamming_7_4_encode` of it yields `pad_count 0` and exactly
one 7-bit block. -/
theorem aaab_scenario :
    compute_symbol_probabilities ['a', 'a', 'a', 'b'] =
      [('a', 3/4), ('b', 1/4)] ∧
    build_huffman_codes
        (build_huffman_tree
          (compute_symbol_probabilities ['a', 'a', 'a', 'b'])) =
      [('b', ['0']), ('a', ['1'])] ∧
    huffman_encode ['a', 'a', 'a', 'b']
        (build_huffman_codes
          (build_huffman_tree
            (compute_symbol_probabilities ['a', 'a', 'a', 'b']))) =
      some ['1', '1', '1', '0'] ∧
    hamming_7_4_encode ['1', '1', '1', '0'] =
      (['0', '0', '1', '0', '1', '1', '0'], 0) ∧
    (hamming_7_4_encode ['1', '1', '1', '0']).1.length = 7 := by
  rw [aaab_probabilities, build_aaab]
  refine ⟨?_, rfl, rfl, rfl, rfl⟩
  norm_num [Rat.mkRat_eq_div]

/-! ## The heap operations permute their contents

Each `heapq` routine only moves elements around, so the heap before and
after is a permutation; this is what lets every tree-content invariant pass
through `build_huffman_tree`'s loop. -/

theorem set_getD_self {α : Type} [Inhabited α] :
    ∀ (l : List α) (i : Nat), i < l.length → l.set i (l.getD i default) = l := by
  intro l
  induction l with
  | nil => intro i h; simp at h
  | cons a t ih =>
    intro i h
    cases i with
    | zero => rfl
    | succ j =>
      simp only [List.set_cons_succ, List.getD_cons_succ]
      rw [ih j (by simpa using h)]

theorem set_perm_cons_eraseIdx {α : Type} :
    ∀ (l : List α) (j : Nat) (x : α), j < l.length →
      (l.set j x).Perm (x :: l.eraseIdx j) := by
  intro l
  induction l with
  | nil => intro j x h; simp at h
  | cons a t ih =>
    intro j x h
    cases j with
    | zero => simp
    | succ i =>
      simp only [List.set_cons_succ, List.eraseIdx_cons_succ]
      exact ((ih i x (by simpa using h)).cons a).trans (List.Perm.swap x a _)

theorem getD_cons_eraseIdx_perm {α : Type} [Inhabited α] :
    ∀ (l : List α) (j : Nat), j < l.length →
      (l.getD j default :: l.eraseIdx j).Perm l := by
  intro l
  induction l with
  | nil => intro j h; simp at h
  | cons a t ih =>
    intro j h
    cases j with
    | zero => simp
    | succ i =>
      simp only [List.getD_cons_succ, List.eraseIdx_cons_succ]
      exact (List.Perm.swap a _ _).trans ((ih i (by simpa using h)).cons a)

/-- Writing the value read at `q` into position `p` and then overwriting
position `q` permutes to a single write at `p`. -/
theorem set_set_perm {α : Type} [Inhabited α] :
    ∀ (l : List α) (p q : Nat) (x : α), p < l.length → q < l.length →
      p ≠ q → ((l.set p (l.getD q default)).set q x).Perm (l.set p x) := by
  intro l
  induction l with
  | nil => intro p q x hp _ _; simp at hp
  | cons a t ih =>
    intro p q x hp hq hne
    cases p with
    | zero =>
      cases q with
      | zero => exact absurd rfl hne
      | succ j =>
        simp only [List.getD_cons_succ, List.set_cons_zero,
          List.set_cons_succ]
        have hjt : j < t.length := by simpa using hq
        refine ((set_perm_cons_eraseIdx t j x hjt).cons _).trans ?_
        refine (List.Perm.swap ..).trans ?_
        exact (getD_cons_eraseIdx_perm t j hjt).cons x
    | succ i =>
      cases q with
      | zero =>
        simp only [List.getD_cons_zero, List.set_cons_succ,
          List.set_cons_zero]
        have hit : i < t.length := by simpa using hp
        refine ((set_perm_cons_eraseIdx t i a hit).cons x).trans ?_
        refine (List.Perm.swap ..).trans ?_
        exact (set_perm_cons_eraseIdx t i x hit).symm.cons a
      | succ j =>
        simp only [List.getD_cons_succ, List.set_cons_succ]
        exact (ih i j x (by simpa using hp) (by simpa using hq)
          (fun h => hne (by rw [h]))).cons a

theorem siftdownAux_perm {α : Type} [Inhabited α] (lt : α → α → Bool)
    (heap : List α) (startpos pos : Nat) (newitem : α) (hpos : pos < heap.length) :
    (siftdownAux lt heap startpos pos newitem).Perm (heap.set pos newitem) := by
  induction heap, startpos, pos, newitem using siftdownAux.induct lt with
  | case1 heap startpos pos newitem h hlt ih =>
    rw [siftdownAux, dif_pos h, if_pos hlt]
    have hpp : (pos - 1) / 2 < heap.length := by
      have := Nat.div_le_self (pos - 1) 2
      omega
    have hih := ih (by simpa using hpp)
    refine hih.trans ?_
    exact set_set_perm heap pos ((pos - 1) / 2) newitem hpos hpp
      (by have := Nat.div_le_self (pos - 1) 2; omega)
  | case2 heap startpos pos newitem h hlt =>
    rw [siftdownAux, dif_pos h, if_neg hlt]
  | case3 heap startpos pos newitem h =>
    rw [siftdownAux, dif_neg h]

theorem siftupChild_lt {α : Type} [Inhabited α] (lt : α → α → Bool)
    (heap : List α) (pos : Nat) (h : 2 * pos + 1 < heap.length) :
    siftupChild lt heap pos < heap.length := by
  unfold siftupChild
  split <;> omega

theorem siftupAux_perm {α : Type} [Inhabited α] (lt : α → α → Bool)
    (heap : List α) (startpos pos : Nat) (newitem : α) (hpos : pos < heap.length) :
    (siftupAux lt heap startpos pos newitem).Perm (heap.set pos newitem) := by
  induction heap, startpos, pos, newitem using siftupAux.induct lt with
  | case1 heap startpos pos newitem h ih =>
    rw [siftupAux, dif_pos h]
    have hcp := siftupChild_lt lt heap pos h
    have hgt := siftupChild_gt lt heap pos
    have hih := ih (by simpa using hcp)
    refine hih.trans ?_
    exact set_set_perm heap pos (siftupChild lt heap pos) newitem hpos hcp
      (by omega)
  | case2 heap startpos pos newitem h =>
    rw [siftupAux, dif_neg h]
    have := siftdownAux_perm lt (heap.set pos newitem) startpos pos newitem
      (by simpa using hpos)
    rw [List.set_set] at this
    exact this

theorem siftup_perm {α : Type} [Inhabited α] (lt : α → α → Bool)
    (heap : List α) (pos : Nat) (hpos : pos < heap.length) :
    (siftup lt heap pos).Perm heap := by
  unfold siftup
  have := siftupAux_perm lt heap pos pos (heap.getD pos default) hpos
  rwa [set_getD_self heap pos hpos] at this

theorem heapifyAux_perm {α : Type} [Inhabited α] (lt : α → α → Bool) :
    ∀ (k : Nat) (heap : List α), k ≤ heap.length →
      (heapifyAux lt heap k).Perm heap := by
  intro k
  induction k with
  | zero => intro heap _; rfl
  | succ i ih =>
    intro heap h
    rw [heapifyAux]
    have hs := siftup_perm lt heap i (by omega)
    have hlen : (siftup lt heap i).length = heap.length := siftup_length ..
    exact (ih (siftup lt heap i) (by omega)).trans hs

theorem heapify_perm {α : Type} [Inhabited α] (lt : α → α → Bool)
    (heap : List α) : (heapify lt heap).Perm heap :=
  heapifyAux_perm lt (heap.length / 2) heap (Nat.div_le_self ..)

theorem heappush_perm {α : Type} [Inhabited α] (lt : α → α → Bool)
    (heap : List α) (item : α) :
    (heappush lt heap item).Perm (item :: heap) := by
  unfold heappush
  have hlen : (heap ++ [item]).length = heap.length + 1 := by simp
  have hpos : (heap ++ [item]).length - 1 < (heap ++ [item]).length := by
    omega
  have := siftdownAux_perm lt (heap ++ [item]) 0 ((heap ++ [item]).length - 1)
    ((heap ++ [item]).getD ((heap ++ [item]).length - 1) default) hpos
  rw [set_getD_self _ _ hpos] at this
  exact this.trans (List.perm_append_singleton ..)

theorem getLastD_eq_getLast {α : Type} [Inhabited α] (heap : List α)
    (h : heap ≠ []) : heap.getLastD default = heap.getLast h := by
  rw [List.getLastD_eq_getLast?, List.getLast?_eq_getLast _ h]
  rfl

theorem heappop_perm {α : Type} [Inhabited α] (lt : α → α → Bool)
    (heap : List α) (h : heap ≠ []) :
    heap.Perm ((heappop lt heap).1 :: (heappop lt heap).2) := by
  unfold heappop
  by_cases he : heap.dropLast.isEmpty
  · simp only [he, if_pos]
    have hd : heap.dropLast = [] := by simpa [List.isEmpty_iff] using he
    conv_lhs => rw [← List.dropLast_append_getLast h]
    rw [hd, getLastD_eq_getLast heap h]
    rfl
  · simp only [he, Bool.false_eq_true, if_neg, not_false_iff]
    have hdne : heap.dropLast ≠ [] := by
      simpa [List.isEmpty_iff] using he
    obtain ⟨r0, t, hrest⟩ : ∃ r0 t, heap.dropLast = r0 :: t := by
      match hd : heap.dropLast with
      | [] => exact absurd hd hdne
      | a :: b => exact ⟨a, b, rfl⟩
    rw [hrest]
    simp only [List.set_cons_zero, List.getD_cons_zero]
    have hperm := siftup_perm lt (heap.getLastD default :: t) 0 (by simp)
    refine List.Perm.trans ?_ ((hperm.symm).cons r0)
    conv_lhs => rw [← List.dropLast_append_getLast h, hrest]
    rw [getLastD_eq_getLast heap h]
    refine (List.perm_append_singleton ..).trans ?_
    exact List.Perm.swap ..

/-! ## Invariants of `build_huffman_tree` -/

theorem heapSyms_perm {h1 h2 : List HuffmanNode} (h : h1.Perm h2) :
    (heapSyms h1).Perm (heapSyms h2) :=
  (h.map treeSyms).flatten

theorem heapSyms_cons (x : HuffmanNode) (l : List HuffmanNode) :
    heapSyms (x :: l) = treeSyms x ++ heapSyms l := rfl

theorem treeSyms_parent (p : ℚ) (n1 n2 : HuffmanNode) :
    treeSyms (.mk none p (some n1) (some n2)) =
      treeSyms n1 ++ treeSyms n2 := rfl

/-- The merge loop preserves the multiset of symbols carried by the heap. -/
theorem buildLoop_syms :
    ∀ (heap : List HuffmanNode), 1 ≤ heap.length →
      (treeSyms (buildLoop heap)).Perm (heapSyms heap) := by
  intro heap
  induction heap using buildLoop.induct with
  | case1 heap h ih =>
    intro _
    rw [buildLoop, dif_pos h]
    have hne : heap ≠ [] := by
      intro e; rw [e] at h; simp at h
    have hp1 := heappop_perm nodeLt heap hne
    have hlen1 := heappop_length nodeLt heap
    have hne2 : (heappop nodeLt heap).2 ≠ [] := by
      intro e
      rw [e] at hlen1; simp at hlen1; omega
    have hp2 := heappop_perm nodeLt _ hne2
    have hlen2 := heappop_length nodeLt (heappop nodeLt heap).2
    have hpushlen := heappush_length nodeLt
      (heappop nodeLt (heappop nodeLt heap).2).2
      (.mk none ((heappop nodeLt heap).1.prob +
          (heappop nodeLt (heappop nodeLt heap).2).1.prob)
        (some (heappop nodeLt heap).1)
        (some (heappop nodeLt (heappop nodeLt heap).2).1))
    have hih := ih (by omega)
    have hpush := heappush_perm nodeLt
      (heappop nodeLt (heappop nodeLt heap).2).2
      (.mk none ((heappop nodeLt heap).1.prob +
          (heappop nodeLt (heappop nodeLt heap).2).1.prob)
        (some (heappop nodeLt heap).1)
        (some (heappop nodeLt (heappop nodeLt heap).2).1))
    refine hih.trans ?_
    refine (heapSyms_perm hpush).trans ?_
    rw [heapSyms_cons, treeSyms_parent]
    refine List.Perm.trans ?_ (heapSyms_perm hp1).symm
    rw [heapSyms_cons]
    refine List.Perm.trans ?_
      ((List.Perm.append_left (treeSyms (heappop nodeLt heap).1)
        (heapSyms_perm hp2)).symm)
    rw [heapSyms_cons, List.append_assoc]
  | case2 heap h =>
    intro h1
    rw [buildLoop, dif_neg h]
    have hlen : heap.length = 1 := by omega
    obtain ⟨x, rfl⟩ := List.length_eq_one.mp hlen
    simp [heapSyms]

theorem heappush_nil {α : Type} [Inhabited α] (lt : α → α → Bool)
    (item : α) : heappush lt [] item = [item] := by
  unfold heappush
  rw [siftdownAux]
  simp

/-- The merge loop started on at least two nodes ends on a freshly created
internal node, whose `symbol` is `None`. -/
theorem buildLoop_symbol_none :
    ∀ (heap : List HuffmanNode), 2 ≤ heap.length →
      (buildLoop heap).symbol = none := by
  intro heap
  induction heap using buildLoop.induct with
  | case1 heap h ih =>
    intro _
    rw [buildLoop, dif_pos h]
    have hlen1 := heappop_length nodeLt heap
    have hlen2 := heappop_length nodeLt (heappop nodeLt heap).2
    have hpushlen := heappush_length nodeLt
      (heappop nodeLt (heappop nodeLt heap).2).2
      (.mk none ((heappop nodeLt heap).1.prob +
          (heappop nodeLt (heappop nodeLt heap).2).1.prob)
        (some (heappop nodeLt heap).1)
        (some (heappop nodeLt (heappop nodeLt heap).2).1))
    by_cases h2 : 2 ≤ (heappush nodeLt
        (heappop nodeLt (heappop nodeLt heap).2).2
        (.mk none ((heappop nodeLt heap).1.prob +
            (heappop nodeLt (heappop nodeLt heap).2).1.prob)
          (some (heappop nodeLt heap).1)
          (some (heappop nodeLt (heappop nodeLt heap).2).1))).length
    · exact ih h2
    · have hp22 : (heappop nodeLt (heappop nodeLt heap).2).2 = [] :=
        List.eq_nil_of_length_eq_zero (by omega)
      rw [hp22, heappush_nil]
      rw [buildLoop, dif_neg (by simp)]
      rfl
  | case2 heap h =>
    intro h2
    omega

/-! ## Structural facts about `traverse` and the code dictionary -/

/-- Induction over `HuffmanNode` through its optional children. -/
theorem HuffmanNode.recOpt {P : HuffmanNode → Prop}
    (h : ∀ sym prob l r, (∀ t, l = some t → P t) → (∀ t, r = some t → P t) →
      P (.mk sym prob l r)) : ∀ t, P t
  | .mk sym prob l r =>
    h sym prob l r
      (fun t _ht => HuffmanNode.recOpt h t)
      (fun t _ht => HuffmanNode.recOpt h t)
termination_by t => sizeOf t
decreasing_by
  · subst _ht; simp; omega
  · subst _ht; simp; omega

/-- The symbols recorded by the traversal are `treeSyms`, independently of
the running code prefix. -/
theorem traverse_map_fst : ∀ (t : HuffmanNode), ∀ (pre : List Char),
    (traverse t pre).map Prod.fst = treeSyms t := by
  intro t
  induction t using HuffmanNode.recOpt with
  | h sym prob l r ihl ihr =>
    intro pre
    cases sym with
    | some s => simp [traverse, treeSyms]
    | none =>
      cases l with
      | none =>
        cases r with
        | none => simp [traverse, treeSyms, optTreeSyms]
        | some tr => simp [traverse, treeSyms, optTreeSyms, ihr tr rfl]
      | some tl =>
        cases r with
        | none => simp [traverse, treeSyms, optTreeSyms, ihl tl rfl]
        | some tr =>
          simp [traverse, treeSyms, optTreeSyms, ihl tl rfl, ihr tr rfl]

/-- Every entry the traversal records consists of the running prefix
extended by a path that leads from the current node to the entry's
symbol. -/
theorem traverse_mem_path : ∀ (t : HuffmanNode),
    ∀ (pre : List Char) (s : Char) (c : List Char),
    (s, c) ∈ traverse t pre → (pre ≠ [] ∨ t.symbol = none) →
    ∃ d, c = pre ++ d ∧ pathLeadsTo t d s := by
  intro t
  induction t using HuffmanNode.recOpt with
  | h sym prob l r ihl ihr =>
    intro pre s c hmem hpre
    cases sym with
    | some s0 =>
      simp only [traverse, List.mem_singleton, Prod.mk.injEq] at hmem
      obtain ⟨rfl, rfl⟩ := hmem
      rcases hpre with hpre | hpre
      · rw [if_neg hpre]
        exact ⟨[], by simp, by simp [pathLeadsTo, HuffmanNode.symbol]⟩
      · simp [HuffmanNode.symbol] at hpre
    | none =>
      cases l with
      | none =>
        cases r with
        | none => simp [traverse] at hmem
        | some tr =>
          simp only [traverse, List.nil_append] at hmem
          obtain ⟨d, hd, hp⟩ :=
            ihr tr rfl (pre ++ ['1']) s c hmem (Or.inl (by simp))
          refine ⟨'1' :: d, by simp [hd], rfl, tr, ?_, hp⟩
          rw [if_neg (by decide)]
          rfl
      | some tl =>
        cases r with
        | none =>
          simp only [traverse, List.append_nil] at hmem
          obtain ⟨d, hd, hp⟩ :=
            ihl tl rfl (pre ++ ['0']) s c hmem (Or.inl (by simp))
          refine ⟨'0' :: d, by simp [hd], rfl, tl, ?_, hp⟩
          rw [if_pos rfl]
          rfl
        | some tr =>
          simp only [traverse, List.mem_append] at hmem
          rcases hmem with hmem | hmem
          · obtain ⟨d, hd, hp⟩ :=
              ihl tl rfl (pre ++ ['0']) s c hmem (Or.inl (by simp))
            refine ⟨'0' :: d, by simp [hd], rfl, tl, ?_, hp⟩
            rw [if_pos rfl]
            rfl
          · obtain ⟨d, hd, hp⟩ :=
              ihr tr rfl (pre ++ ['1']) s c hmem (Or.inl (by simp))
            refine ⟨'1' :: d, by simp [hd], rfl, tr, ?_, hp⟩
            rw [if_neg (by decide)]
            rfl

theorem traverse_entry_ext : ∀ (t : HuffmanNode),
    ∀ (pre : List Char) (e : Char × List Char),
    e ∈ traverse t pre → (pre ≠ [] ∨ t.symbol = none) → pre <+: e.2 := by
  intro t pre e hmem hpre
  obtain ⟨d, hd, -⟩ := traverse_mem_path t pre e.1 e.2 hmem hpre
  rw [hd]
  exact List.prefix_append pre d

/-- The traversal's entries are mutually prefix-incomparable: no recorded
code is a prefix of another recorded code. -/
theorem traverse_pairwise : ∀ (t : HuffmanNode), ∀ (pre : List Char),
    (traverse t pre).Pairwise
      (fun a b => ¬ a.2 <+: b.2 ∧ ¬ b.2 <+: a.2) := by
  intro t
  induction t using HuffmanNode.recOpt with
  | h sym prob l r ihl ihr =>
    intro pre
    cases sym with
    | some s => simp [traverse]
    | none =>
      cases l with
      | none =>
        cases r with
        | none => simp [traverse]
        | some tr =>
          simp only [traverse, List.nil_append]
          exact ihr tr rfl _
      | some tl =>
        cases r with
        | none =>
          simp only [traverse, List.append_nil]
          exact ihl tl rfl _
        | some tr =>
          simp only [traverse]
          refine List.pairwise_append.mpr
            ⟨ihl tl rfl _, ihr tr rfl _, ?_⟩
          intro a ha b hb
          have hpa : (pre ++ ['0']) <+: a.2 :=
            traverse_entry_ext tl _ a ha (Or.inl (by simp))
          have hpb : (pre ++ ['1']) <+: b.2 :=
            traverse_entry_ext tr _ b hb (Or.inl (by simp))
          constructor
          · intro hab
            have h0 : (pre ++ ['0']) <+: b.2 := hpa.trans hab
            have heq := (List.prefix_of_prefix_length_le h0 hpb
              (by simp)).eq_of_length (by simp)
            simp at heq
          · intro hba
            have h1 : (pre ++ ['1']) <+: a.2 := hpb.trans hba
            have heq := (List.prefix_of_prefix_length_le h1 hpa
              (by simp)).eq_of_length (by simp)
            simp at heq

/-! ### The `codes` dictionary built by the fold of `dictSet` -/

theorem dictSet_entry_eq {α : Type} (k0 : Char) (v0 : α) (ek : Char)
    (ev : α) :
    ((fun kv => if kv.1 = k0 then (k0, v0) else kv) (ek, ev) : Char × α) =
      if ek = k0 then (k0, v0) else (ek, ev) := rfl

theorem dictGet_map_replace_ne {α : Type} (k0 k : Char) (v0 : α)
    (hne : k ≠ k0) :
    ∀ (d : List (Char × α)),
      dictGet (d.map fun kv => if kv.1 = k0 then (k0, v0) else kv) k =
        dictGet d k := by
  intro d
  induction d with
  | nil => rfl
  | cons e t ih =>
    obtain ⟨ek, ev⟩ := e
    simp only [List.map_cons, dictSet_entry_eq]
    by_cases he : ek = k0
    · rw [if_pos he]
      simp only [dictGet]
      rw [if_neg (fun h => hne h.symm), if_neg (fun h => hne (he ▸ h).symm),
        ih]
    · rw [if_neg he]
      simp only [dictGet]
      by_cases hk : ek = k
      · rw [if_pos hk, if_pos hk]
      · rw [if_neg hk, if_neg hk, ih]

theorem dictGet_map_replace_self {α : Type} (k0 : Char) (v0 c : α) :
    ∀ (d : List (Char × α)),
      dictGet (d.map fun kv => if kv.1 = k0 then (k0, v0) else kv) k0 =
        some c → c = v0 := by
  intro d
  induction d with
  | nil => intro h; simp [dictGet] at h
  | cons e t ih =>
    obtain ⟨ek, ev⟩ := e
    simp only [List.map_cons, dictSet_entry_eq]
    by_cases he : ek = k0
    · rw [if_pos he]
      simp only [dictGet, if_pos rfl]
      intro h
      exact (Option.some_inj.mp h).symm
    · rw [if_neg he]
      simp only [dictGet]
      rw [if_neg he]
      exact ih

theorem dictGet_append_single {α : Type} (k0 k : Char) (v0 : α) (c : α) :
    ∀ (d : List (Char × α)),
      dictGet (d ++ [(k0, v0)]) k = some c →
      (k = k0 ∧ c = v0) ∨ dictGet d k = some c := by
  intro d
  induction d with
  | nil =>
    intro h
    simp only [List.nil_append, dictGet] at h
    by_cases hk : k0 = k
    · rw [if_pos hk] at h
      exact Or.inl ⟨hk.symm, (Option.some_inj.mp h).symm⟩
    · rw [if_neg hk] at h
      simp [dictGet] at h
  | cons e t ih =>
    obtain ⟨ek, ev⟩ := e
    simp only [List.cons_append, dictGet]
    by_cases hk : ek = k
    · rw [if_pos hk, if_pos hk]
      exact fun h => Or.inr h
    · rw [if_neg hk, if_neg hk]
      exact ih

/-- One `d[k] = v` update: a successful lookup afterwards either found the
new binding or an untouched old one. -/
theorem dictGet_dictSet_cases {α : Type} (d : List (Char × α)) (k0 k : Char)
    (v0 c : α) (h : dictGet (dictSet d k0 v0) k = some c) :
    (k = k0 ∧ c = v0) ∨ dictGet d k = some c := by
  unfold dictSet at h
  by_cases hf : ((d.find? fun kv => kv.1 = k0).isSome : Prop)
  · rw [if_pos hf] at h
    by_cases hk : k = k0
    · subst hk
      exact Or.inl ⟨rfl, dictGet_map_replace_self k v0 c d h⟩
    · rw [dictGet_map_replace_ne k0 k v0 hk d] at h
      exact Or.inr h
  · rw [if_neg hf] at h
    exact dictGet_append_single k0 k v0 c d h

/-- A successful lookup in the folded dictionary comes from one of the
recorded writes (or from the initial dictionary). -/
theorem dictGet_fold_mem {α : Type} :
    ∀ (entries : List (Char × α)) (d0 : List (Char × α)) (k : Char) (c : α),
      dictGet (entries.foldl (fun d kv => dictSet d kv.1 kv.2) d0) k =
        some c →
      (k, c) ∈ entries ∨ dictGet d0 k = some c := by
  intro entries
  induction entries with
  | nil => intro d0 k c h; exact Or.inr h
  | cons e es ih =>
    intro d0 k c h
    rcases ih (dictSet d0 e.1 e.2) k c h with hm | hd
    · exact Or.inl (List.mem_cons_of_mem e hm)
    · rcases dictGet_dictSet_cases d0 e.1 k e.2 c hd with ⟨rfl, rfl⟩ | hold
      · exact Or.inl (by simp)
      · exact Or.inr hold

/-! ### What `build_huffman_tree` produces -/

theorem heapSyms_leaves :
    ∀ (p : List (Char × ℚ)),
      heapSyms (p.map fun sp => HuffmanNode.mk (some sp.1) sp.2 none none) =
        p.map Prod.fst := by
  intro p
  induction p with
  | nil => rfl
  | cons sp t ih =>
    simp only [List.map, heapSyms_cons, ih]
    rfl

/-- For a non-empty mapping, `build_huffman_tree` returns a root whose
`symbol` is `None` and whose carried symbols are a permutation of the
mapping's keys. -/
theorem build_huffman_tree_spec (p : List (Char × ℚ)) (hp : p ≠ []) :
    ∃ root, build_huffman_tree p = some root ∧ root.symbol = none ∧
      (treeSyms root).Perm (p.map Prod.fst) := by
  have hne : ¬ (p.map fun sp =>
      HuffmanNode.mk (some sp.1) sp.2 none none).isEmpty := by
    simpa [List.isEmpty_iff] using hp
  have hperm := heapify_perm nodeLt
    (p.map fun sp => HuffmanNode.mk (some sp.1) sp.2 none none)
  have hlen : (heapify nodeLt (p.map fun sp =>
      HuffmanNode.mk (some sp.1) sp.2 none none)).length = p.length := by
    rw [hperm.length_eq]; simp
  simp only [build_huffman_tree, hne, Bool.false_eq_true, if_neg,
    not_false_iff]
  by_cases h1 : (heapify nodeLt (p.map fun sp =>
      HuffmanNode.mk (some sp.1) sp.2 none none)).length = 1
  · rw [if_pos h1]
    obtain ⟨x, hx⟩ := List.length_eq_one.mp h1
    obtain ⟨sp, hsp⟩ : ∃ sp, p = [sp] := by
      have : p.length = 1 := by omega
      exact List.length_eq_one.mp this
    subst hsp
    have hx2 : x = HuffmanNode.mk (some sp.1) sp.2 none none := by
      have := hperm
      rw [hx] at this
      have := List.perm_singleton.mp this.symm
      simpa using this.symm
    refine ⟨_, rfl, rfl, ?_⟩
    rw [hx, hx2]
    simp [treeSyms, optTreeSyms, HuffmanNode.prob, List.getD]
  · rw [if_neg h1]
    have hl0 : 1 ≤ p.length := List.length_pos.mpr hp
    have hge : 2 ≤ (heapify nodeLt (p.map fun sp =>
        HuffmanNode.mk (some sp.1) sp.2 none none)).length := by omega
    refine ⟨_, rfl, ?_, ?_⟩
    · exact buildLoop_symbol_none _ hge
    · refine (buildLoop_syms _ (by omega)).trans ?_
      refine (heapSyms_perm hperm).trans ?_
      rw [heapSyms_leaves]

/-! ## C4: the derived code table is prefix-free -/

/-- C4: for every probability mapping `p` and distinct symbols `a ≠ b`
whose codes appear in `build_huffman_codes (build_huffman_tree p)`, the
code of `a` is not a prefix of the code of `b`; the statement quantifies
over every mapping, including the one-symbol ones (where it is vacuous for
lack of a second symbol). -/
theorem huffman_codes_prefix_free (p : List (Char × ℚ)) (a b : Char)
    (ca cb : List Char) (hab : a ≠ b)
    (ha : dictGet (build_huffman_codes (build_huffman_tree p)) a = some ca)
    (hb : dictGet (build_huffman_codes (build_huffman_tree p)) b = some cb) :
    ¬ ca <+: cb := by
  by_cases hp : p = []
  · subst hp
    simp [build_huffman_tree, build_huffman_codes, dictGet] at ha
  · obtain ⟨root, hroot, hsym, -⟩ := build_huffman_tree_spec p hp
    rw [hroot] at ha hb
    simp only [build_huffman_codes] at ha hb
    have hma := dictGet_fold_mem _ [] a ca ha
    have hmb := dictGet_fold_mem _ [] b cb hb
    rcases hma with hma | hma
    · rcases hmb with hmb | hmb
      · have hpw := traverse_pairwise root []
        have hsymm : Symmetric (fun (x y : Char × List Char) =>
            ¬ x.2 <+: y.2 ∧ ¬ y.2 <+: x.2) := fun x y h => ⟨h.2, h.1⟩
        have hforall := hpw.forall hsymm hma hmb (by simp [hab])
        exact hforall.1
      · simp [dictGet] at hmb
    · simp [dictGet] at hma

theorem huffman_codes_prefix_free_witness :
    ¬ (['0'] : List Char) <+: ['1'] :=
  huffman_codes_prefix_free [('x', 1), ('y', 2)] 'x' 'y' ['0'] ['1']
    (by decide)
    (by rw [build_huffman_treeE_eq]; rfl)
    (by rw [build_huffman_treeE_eq]; rfl)

/-! ## Supporting lemmas for the Hamming(7,4) claims -/

/-- A bitstream in the sense of the spec: every character is `'0'` or
`'1'`. -/
def IsBits (l : List Char) : Prop := ∀ c ∈ l, c = '0' ∨ c = '1'

instance (l : List Char) : Decidable (IsBits l) :=
  List.decidableBAll _ l

theorem charVal_le_one {c : Char} (h : c = '0' ∨ c = '1') : charVal c ≤ 1 := by
  rcases h with h | h <;> subst h <;> decide

theorem xor_le_one {a b : Nat} (ha : a ≤ 1) (hb : b ≤ 1) : a ^^^ b ≤ 1 := by
  interval_cases a <;> interval_cases b <;> decide

/-- Mapping a 0/1 integer list to characters and back is the identity. -/
theorem bitstr_roundtrip :
    ∀ (l : List Nat), (∀ v ∈ l, v ≤ 1) →
      bitstrToIntList (intListToBitstr l) = l := by
  intro l
  induction l with
  | nil => intro _; rfl
  | cons v t ih =>
    intro h
    have hv : v ≤ 1 := h v (by simp)
    have ht := ih fun x hx => h x (by simp [hx])
    interval_cases v <;> simp_all [bitstrToIntList, intListToBitstr]

/-- The characters emitted by `intListToBitstr` are all `'0'`/`'1'`. -/
theorem intListToBitstr_isBits (l : List Nat) : IsBits (intListToBitstr l) := by
  intro c hc
  simp only [intListToBitstr, List.mem_map] at hc
  obtain ⟨v, -, rfl⟩ := hc
  by_cases h : v ≠ 0 <;> simp [h]

/-- Re-reading the bit characters of a binary stream gives its values. -/
theorem intListToBitstr_map_charVal :
    ∀ (l : List Char), IsBits l → intListToBitstr (l.map charVal) = l := by
  intro l
  induction l with
  | nil => intro _; rfl
  | cons c t ih =>
    intro h
    have hc := h c (by simp)
    have ht := ih fun x hx => h x (by simp [hx])
    rcases hc with rfl | rfl <;>
      simpa [intListToBitstr, charVal] using ht

/-- A valid Hamming(7,4) codeword block has syndrome 0, so `decodeBlocks`
extracts its data bits unchanged. -/
theorem decodeBlocks_valid_block (d1 d2 d3 d4 : Nat) (rest : List Nat)
    (h1 : d1 ≤ 1) (h2 : d2 ≤ 1) (h3 : d3 ≤ 1) (h4 : d4 ≤ 1) :
    decodeBlocks (((d1 ^^^ d2) ^^^ d4) :: ((d1 ^^^ d3) ^^^ d4) :: d1 ::
        ((d2 ^^^ d3) ^^^ d4) :: d2 :: d3 :: d4 :: rest) =
      d1 :: d2 :: d3 :: d4 :: decodeBlocks rest := by
  interval_cases d1 <;> interval_cases d2 <;> interval_cases d3 <;>
    interval_cases d4 <;> simp [decodeBlocks]

theorem encodeBlocks_cons (c1 c2 c3 c4 : Char) (rest : List Char) :
    encodeBlocks (c1 :: c2 :: c3 :: c4 :: rest) =
      ((charVal c1 ^^^ charVal c2) ^^^ charVal c4) ::
        ((charVal c1 ^^^ charVal c3) ^^^ charVal c4) :: charVal c1 ::
        ((charVal c2 ^^^ charVal c3) ^^^ charVal c4) :: charVal c2 ::
        charVal c3 :: charVal c4 :: encodeBlocks rest := rfl

theorem encodeBlocks_length :
    ∀ (n : Nat) (l : List Char), l.length = 4 * n →
      (encodeBlocks l).length = 7 * n := by
  intro n
  induction n with
  | zero =>
    intro l h
    have : l = [] := List.eq_nil_of_length_eq_zero (by omega)
    subst this; rfl
  | succ k ih =>
    intro l h
    match l with
    | c1 :: c2 :: c3 :: c4 :: rest =>
      have hr : rest.length = 4 * k := by simp at h; omega
      rw [encodeBlocks_cons]
      simp [ih rest hr]
      omega
    | [] | [_] | [_, _] | [_, _, _] => simp at h <;> omega

theorem encodeBlocks_le_one :
    ∀ (n : Nat) (l : List Char), l.length = 4 * n → IsBits l →
      ∀ v ∈ encodeBlocks l, v ≤ 1 := by
  intro n
  induction n with
  | zero =>
    intro l h _
    have : l = [] := List.eq_nil_of_length_eq_zero (by omega)
    subst this; simp [encodeBlocks]
  | succ k ih =>
    intro l h hb
    match l with
    | c1 :: c2 :: c3 :: c4 :: rest =>
      have hr : rest.length = 4 * k := by simp at h; omega
      have b1 := charVal_le_one (hb c1 (by simp))
      have b2 := charVal_le_one (hb c2 (by simp))
      have b3 := charVal_le_one (hb c3 (by simp))
      have b4 := charVal_le_one (hb c4 (by simp))
      have hbr : IsBits rest := fun x hx => hb x (by simp [hx])
      rw [encodeBlocks_cons]
      intro v hv
      simp only [List.mem_cons] at hv
      rcases hv with rfl | rfl | rfl | rfl | rfl | rfl | rfl | hv
      · exact xor_le_one (xor_le_one b1 b2) b4
      · exact xor_le_one (xor_le_one b1 b3) b4
      · exact b1
      · exact xor_le_one (xor_le_one b2 b3) b4
      · exact b2
      · exact b3
      · exact b4
      · exact ih rest hr hbr v hv
    | [] | [_] | [_, _] | [_, _, _] => simp at h <;> omega

/-- Decoding the (error-free) encoded blocks of a binary stream whose length
is a multiple of 4 recovers the stream's bit values. -/
theorem decodeBlocks_encodeBlocks :
    ∀ (n : Nat) (l : List Char), l.length = 4 * n → IsBits l →
      decodeBlocks (bitstrToIntList (intListToBitstr (encodeBlocks l))) =
        l.map charVal := by
  intro n
  induction n with
  | zero =>
    intro l h _
    have : l = [] := List.eq_nil_of_length_eq_zero (by omega)
    subst this; rfl
  | succ k ih =>
    intro l h hb
    match l with
    | c1 :: c2 :: c3 :: c4 :: rest =>
      have hr : rest.length = 4 * k := by simp at h; omega
      have b1 := charVal_le_one (hb c1 (by simp))
      have b2 := charVal_le_one (hb c2 (by simp))
      have b3 := charVal_le_one (hb c3 (by simp))
      have b4 := charVal_le_one (hb c4 (by simp))
      have hbr : IsBits rest := fun x hx => hb x (by simp [hx])
      rw [bitstr_roundtrip _ (encodeBlocks_le_one (k + 1) _ h hb),
        encodeBlocks_cons,
        decodeBlocks_valid_block _ _ _ _ _ b1 b2 b3 b4]
      have := ih rest hr hbr
      rw [bitstr_roundtrip _ (encodeBlocks_le_one k rest hr hbr)] at this
      simp [this]
    | [] | [_] | [_, _] | [_, _, _] => simp at h <;> omega

/-- Decoding the encoded blocks with exactly one value flipped (anywhere)
still recovers the stream's bit values: the syndrome locates and corrects
the flip inside its own block. -/
theorem decodeBlocks_flip_one :
    ∀ (n : Nat) (l : List Char), l.length = 4 * n → IsBits l →
      ∀ i, i < 7 * n →
      decodeBlocks ((encodeBlocks l).set i
          (((encodeBlocks l).getD i 0) ^^^ 1)) =
        l.map charVal := by
  intro n
  induction n with
  | zero => intro l h _ i hi; omega
  | succ k ih =>
    intro l h hb i hi
    match l with
    | c1 :: c2 :: c3 :: c4 :: rest =>
      have hr : rest.length = 4 * k := by simp at h; omega
      have hbr : IsBits rest := fun x hx => hb x (by simp [hx])
      have hM := decodeBlocks_encodeBlocks k rest hr hbr
      rw [bitstr_roundtrip _ (encodeBlocks_le_one k rest hr hbr)] at hM
      have b1 := charVal_le_one (hb c1 (by simp))
      have b2 := charVal_le_one (hb c2 (by simp))
      have b3 := charVal_le_one (hb c3 (by simp))
      have b4 := charVal_le_one (hb c4 (by simp))
      rw [encodeBlocks_cons]
      by_cases hi7 : i < 7
      · rcases hb c1 (by simp) with e1 | e1 <;>
        rcases hb c2 (by simp) with e2 | e2 <;>
        rcases hb c3 (by simp) with e3 | e3 <;>
        rcases hb c4 (by simp) with e4 | e4 <;>
        subst e1 <;> subst e2 <;> subst e3 <;> subst e4 <;>
        interval_cases i <;> simp [decodeBlocks, charVal, hM]
      · obtain ⟨j, rfl⟩ : ∃ j, i = j + 7 := ⟨i - 7, by omega⟩
        have hj : j < 7 * k := by omega
        have hstep := ih rest hr hbr j hj
        simp only [List.set_cons_succ, List.getD_cons_succ]
        rw [decodeBlocks_valid_block _ _ _ _ _ b1 b2 b3 b4, hstep]
        simp
    | [] | [_] | [_, _] | [_, _, _] => simp at h <;> omega

/-- Re-reading the characters of a flipped bit stream flips the value at
that index (`xor 1`) and leaves the others unchanged. -/
theorem bitstrToIntList_flip :
    ∀ (l : List Char) (i : Nat), IsBits l →
      bitstrToIntList (flipBitAt l i) =
        (bitstrToIntList l).set i (((bitstrToIntList l).getD i 0) ^^^ 1) := by
  intro l
  induction l with
  | nil => intro i _; simp [flipBitAt, bitstrToIntList]
  | cons c t ih =>
    intro i hl
    cases i with
    | zero =>
      rcases hl c (by simp) with rfl | rfl <;>
        simp [flipBitAt, bitstrToIntList]
    | succ j =>
      have ht := ih j fun x hx => hl x (by simp [hx])
      simp only [flipBitAt, List.set_cons_succ, List.getD_cons_succ,
        bitstrToIntList, List.map] at ht ⊢
      rw [ht]

/-- Unfolding `hamming_7_4_decode` on a well-formed non-empty input whose
decoded data bits are the padded stream's values: the padding is stripped
and the original stream returned. -/
theorem hamming_decode_of_data (B : List Char) (hB : IsBits B) (h0 : B ≠ [])
    (bits : List Char) (hne : bits ≠ []) (hlen7 : bits.length % 7 = 0)
    (hdata : decodeBlocks (bitstrToIntList bits) =
      (B ++ List.replicate ((4 - B.length % 4) % 4) '0').map charVal) :
    hamming_7_4_decode bits (((4 - B.length % 4) % 4 : Nat) : Int) =
      .ok B := by
  simp only [hamming_7_4_decode, if_neg hne, if_neg (by omega :
    ¬ bits.length % 7 ≠ 0), hdata]
  rcases hp : (4 - B.length % 4) % 4 with _ | k
  · simp only [hp, List.replicate, List.append_nil]
    rw [if_neg (by simp)]
    exact congrArg Except.ok (intListToBitstr_map_charVal B hB)
  · rw [if_pos (by simp)]
    have hlen : ((B ++ List.replicate (k + 1) '0').map charVal).length =
        B.length + (k + 1) := by simp
    rw [hlen]
    have htn : ((((k : Nat) + 1 : Nat) : Int)).toNat = k + 1 := by simp
    rw [htn, List.map_append]
    have he : B.length + (k + 1) - (k + 1) = (B.map charVal).length := by simp
    rw [he, List.take_left]
    exact congrArg Except.ok (intListToBitstr_map_charVal B hB)

/-! ## C2: Hamming encode/decode round-trip with no errors -/

/-- C2: for every bitstream `B` of `'0'`/`'1'` characters, decoding the
Hamming(7,4) encoding of `B` with the pad count returned by the encoder
gives back exactly `B` (the pad bits appended by encode are stripped by
decode); this includes the empty stream. -/
theorem hamming_encode_decode_roundtrip (B : List Char) (hB : IsBits B) :
    hamming_7_4_decode (hamming_7_4_encode B).1
      (((hamming_7_4_encode B).2 : Nat) : Int) = .ok B := by
  by_cases h0 : B = []
  · subst h0; rfl
  · simp only [hamming_7_4_encode, if_neg h0]
    have hpadlen : (B ++ List.replicate ((4 - B.length % 4) % 4) '0').length
        = B.length + (4 - B.length % 4) % 4 := by simp
    obtain ⟨n, hn⟩ :
        ∃ n, (B ++ List.replicate ((4 - B.length % 4) % 4) '0').length
          = 4 * n :=
      ⟨(B.length + (4 - B.length % 4) % 4) / 4, by omega⟩
    have hbits : IsBits (B ++ List.replicate ((4 - B.length % 4) % 4) '0') := by
      intro c hc
      rcases List.mem_append.mp hc with h | h
      · exact hB c h
      · left; exact List.eq_of_mem_replicate h
    have hn1 : 1 ≤ n := by
      have : B.length ≠ 0 := fun h => h0 (List.eq_nil_of_length_eq_zero h)
      omega
    have hElen :
        (intListToBitstr (encodeBlocks
          (B ++ List.replicate ((4 - B.length % 4) % 4) '0'))).length
        = 7 * n := by
      simp [intListToBitstr, encodeBlocks_length n _ hn]
    refine hamming_decode_of_data B hB h0 _ ?_ ?_ ?_
    · intro h; rw [h] at hElen; simp at hElen; omega
    · omega
    · exact decodeBlocks_encodeBlocks n _ hn hbits

theorem hamming_encode_decode_roundtrip_witness :
    hamming_7_4_decode (hamming_7_4_encode ['1', '0', '1', '1', '0']).1
      (((hamming_7_4_encode ['1', '0', '1', '1', '0']).2 : Nat) : Int) =
      .ok ['1', '0', '1', '1', '0'] :=
  hamming_encode_decode_roundtrip ['1', '0', '1', '1', '0'] (by decide)

/-! ## C3: any single flipped bit in the coded stream is corrected -/

/-- C3: for every bitstream `B` of `'0'`/`'1'` characters and every position
`i` inside the Hamming(7,4) coded stream of `B`, flipping exactly the bit at
`i` and then decoding with the encoder's pad count still returns `B`: the
single flipped bit, wherever it lies inside its 7-bit block, is corrected. -/
theorem hamming_single_flip_corrected (B : List Char) (hB : IsBits B)
    (i : Nat) (hi : i < (hamming_7_4_encode B).1.length) :
    hamming_7_4_decode (flipBitAt (hamming_7_4_encode B).1 i)
      (((hamming_7_4_encode B).2 : Nat) : Int) = .ok B := by
  by_cases h0 : B = []
  · subst h0; simp [hamming_7_4_encode] at hi
  · simp only [hamming_7_4_encode, if_neg h0] at hi ⊢
    have hpadlen : (B ++ List.replicate ((4 - B.length % 4) % 4) '0').length
        = B.length + (4 - B.length % 4) % 4 := by simp
    obtain ⟨n, hn⟩ :
        ∃ n, (B ++ List.replicate ((4 - B.length % 4) % 4) '0').length
          = 4 * n :=
      ⟨(B.length + (4 - B.length % 4) % 4) / 4, by omega⟩
    have hbits : IsBits (B ++ List.replicate ((4 - B.length % 4) % 4) '0') := by
      intro c hc
      rcases List.mem_append.mp hc with h | h
      · exact hB c h
      · left; exact List.eq_of_mem_replicate h
    have hElen :
        (intListToBitstr (encodeBlocks
          (B ++ List.replicate ((4 - B.length % 4) % 4) '0'))).length
        = 7 * n := by
      simp [intListToBitstr, encodeBlocks_length n _ hn]
    have hi7 : i < 7 * n := by rw [hElen] at hi; exact hi
    refine hamming_decode_of_data B hB h0 _ ?_ ?_ ?_
    · intro h
      have hc := congrArg List.length h
      simp only [flipBitAt, List.length_set, hElen] at hc
      simp at hc; omega
    · simp only [flipBitAt, List.length_set, hElen]; omega
    · rw [bitstrToIntList_flip _ i (intListToBitstr_isBits _),
        bitstr_roundtrip _ (encodeBlocks_le_one n _ hn hbits)]
      exact decodeBlocks_flip_one n _ hn hbits i hi7

theorem hamming_single_flip_corrected_witness :
    hamming_7_4_decode
        (flipBitAt (hamming_7_4_encode ['1', '0', '1', '1', '0']).1 9)
      (((hamming_7_4_encode ['1', '0', '1', '1', '0']).2 : Nat) : Int) =
      .ok ['1', '0', '1', '1', '0'] :=
  hamming_single_flip_corrected ['1', '0', '1', '1', '0'] (by decide) 9
    (by decide)

/-! ## C9: trailing bits that end mid-path are silently discarded -/

theorem decodeLoop_append (root : HuffmanNode) (b1 b2 : List Char)
    (node : HuffmanNode) :
    decodeLoop root (b1 ++ b2) node =
      (decodeLoop root b1 node).bind fun r =>
        (decodeLoop root b2 r.2).map fun r2 => (r.1 ++ r2.1, r2.2) := by
  induction b1 generalizing node with
  | nil =>
    simp [decodeLoop]
  | cons b bs ih =>
    cases hc : (if b = '0' then node.left else node.right) with
    | none =>
      simp [decodeLoop, hc]
    | some n2 =>
      cases hs : n2.symbol with
      | some s =>
        simp only [List.cons_append, decodeLoop, hc, hs, List.append_eq]
        rw [ih]
        cases h1 : decodeLoop root bs root with
        | none => simp
        | some r =>
          cases h2 : decodeLoop root b2 r.2 with
          | none => simp [h2]
          | some r2 => simp [h2]
      | none =>
        simp only [List.cons_append, decodeLoop, hc, hs, List.append_eq]
        exact ih n2

/-- C9: if the bitstream splits as `b1 ++ b2` where the walk over `b1` ends
at some node and the walk over the trailing `b2` emits no symbol and ends
at a non-leaf node (the stream ends mid-path), then decoding the whole
stream silently returns exactly the symbols of `b1`'s complete paths: the
trailing bits are discarded, produce no symbol and raise no error. -/
theorem huffman_decode_discards_dangling_tail (root : HuffmanNode)
    (b1 b2 out : List Char) (n n2 : HuffmanNode)
    (h1 : decodeLoop root b1 root = some (out, n))
    (h2 : decodeLoop root b2 n = some ([], n2))
    (h3 : n2.symbol = none) :
    huffman_decode (b1 ++ b2) (some root) = some out ∧
    huffman_decode b1 (some root) = some out := by
  simp only [huffman_decode]
  rw [decodeLoop_append, h1]
  simp [h1, h2]

/-- Tree used by the C9 witness: `a` on the left, an internal node with
children `b`, `c` on the right. -/
def w9root : HuffmanNode :=
  .mk none 1 (some (.mk (some 'a') (1/2) none none))
    (some (.mk none (1/2) (some (.mk (some 'b') (1/4) none none))
      (some (.mk (some 'c') (1/4) none none))))

theorem huffman_decode_discards_dangling_tail_witness :
    huffman_decode ['0', '1'] (some w9root) = some ['a'] ∧
    huffman_decode ['0'] (some w9root) = some ['a'] :=
  huffman_decode_discards_dangling_tail w9root ['0'] ['1'] ['a'] w9root
    (.mk none (1/2) (some (.mk (some 'b') (1/4) none none))
      (some (.mk (some 'c') (1/4) none none)))
    rfl rfl rfl

/-! ## C1: the Huffman round-trip on the source's own distribution -/

/-- Walking the decoder along a full path to a symbol emits that symbol and
resets to the root before the remaining bits. -/
theorem decodeLoop_path (root : HuffmanNode) :
    ∀ (d : List Char) (t : HuffmanNode) (s : Char) (rest : List Char),
      pathLeadsTo t d s → t.symbol = none →
      decodeLoop root (d ++ rest) t =
        (decodeLoop root rest root).map fun r => (s :: r.1, r.2) := by
  intro d
  induction d with
  | nil =>
    intro t s rest hp hn
    have hp' : t.symbol = some s := hp
    rw [hp'] at hn
    cases hn
  | cons x xs ih =>
    intro t s rest hp hn
    obtain ⟨-, child, hstep, hrest⟩ := hp
    cases xs with
    | nil =>
      have hcs : child.symbol = some s := hrest
      simp only [List.cons_append, List.nil_append, decodeLoop, hstep, hcs,
        List.append_eq]
    | cons y ys =>
      obtain ⟨hcn, hex⟩ := hrest
      simp only [List.cons_append, decodeLoop, hstep, hcn, List.append_eq]
      exact ih child s rest ⟨hcn, hex⟩ hcn

/-! ### Lookups in the folded dictionary succeed for written keys -/

theorem find?_isSome_of_key {α : Type} (k : Char) :
    ∀ (d : List (Char × α)) (ek : Char) (ev : α), (ek, ev) ∈ d → ek = k →
      (d.find? fun kv => kv.1 = k).isSome := by
  intro d
  induction d with
  | nil => intro ek ev h _; simp at h
  | cons e t ih =>
    intro ek ev h hk
    rcases List.mem_cons.mp h with rfl | h
    · simp [List.find?_cons, hk]
    · rw [List.find?_cons]
      cases hd : (decide (e.1 = k) : Bool)
      · simp only [hd]
        exact ih ek ev h hk
      · simp only [hd]
        rfl

theorem dictGet_map_replace_hit {α : Type} (k : Char) (v : α) :
    ∀ (d : List (Char × α)),
      (d.find? fun kv => kv.1 = k).isSome →
      dictGet (d.map fun kv => if kv.1 = k then (k, v) else kv) k =
        some v := by
  intro d
  induction d with
  | nil => intro h; simp at h
  | cons e t ih =>
    obtain ⟨ek, ev⟩ := e
    intro h
    simp only [List.map_cons, dictSet_entry_eq]
    by_cases he : ek = k
    · rw [if_pos he]
      simp [dictGet]
    · rw [if_neg he]
      simp only [dictGet]
      rw [if_neg he]
      refine ih ?_
      rw [List.find?_cons] at h
      have hdec : (decide ((ek, ev).1 = k) : Bool) = false := by
        simpa using he
      rw [hdec] at h
      exact h

theorem dictGet_append_right_of_none {α : Type} (k : Char) (v : α) :
    ∀ (d : List (Char × α)), dictGet d k = none →
      dictGet (d ++ [(k, v)]) k = some v := by
  intro d
  induction d with
  | nil => intro _; simp [dictGet]
  | cons e t ih =>
    obtain ⟨ek, ev⟩ := e
    intro h
    simp only [dictGet] at h ⊢
    by_cases he : ek = k
    · rw [if_pos he] at h; cases h
    · rw [if_neg he] at h ⊢
      exact ih h

theorem find?_none_dictGet_none {α : Type} (k : Char) :
    ∀ (d : List (Char × α)),
      ¬ (d.find? fun kv => kv.1 = k).isSome → dictGet d k = none := by
  intro d
  induction d with
  | nil => intro _; rfl
  | cons e t ih =>
    obtain ⟨ek, ev⟩ := e
    intro h
    rw [List.find?_cons] at h
    simp only [dictGet]
    by_cases he : ek = k
    · exfalso
      apply h
      have hdec : (decide ((ek, ev).1 = k) : Bool) = true := by
        simpa using he
      rw [hdec]
      rfl
    · rw [if_neg he]
      refine ih ?_
      intro h2
      apply h
      have hdec : (decide ((ek, ev).1 = k) : Bool) = false := by
        simpa using he
      rw [hdec]
      exact h2

/-- After `d[k] = v`, looking up `k` returns `v`. -/
theorem dictGet_dictSet_self {α : Type} (d : List (Char × α)) (k : Char)
    (v : α) : dictGet (dictSet d k v) k = some v := by
  unfold dictSet
  by_cases hf : ((d.find? fun kv => kv.1 = k).isSome : Prop)
  · rw [if_pos hf]
    exact dictGet_map_replace_hit k v d hf
  · rw [if_neg hf]
    exact dictGet_append_right_of_none k v d (find?_none_dictGet_none k d hf)

theorem dictGet_append_left {α : Type} (k : Char) (c : α) (x : List (Char × α)) :
    ∀ (d : List (Char × α)), dictGet d k = some c →
      dictGet (d ++ x) k = some c := by
  intro d
  induction d with
  | nil => intro h; simp [dictGet] at h
  | cons e t ih =>
    obtain ⟨ek, ev⟩ := e
    intro h
    simp only [dictGet] at h ⊢
    by_cases he : ek = k
    · rw [if_pos he] at h ⊢; exact h
    · rw [if_neg he] at h ⊢
      exact ih h

/-- A `dictSet` with any key preserves the success of other lookups. -/
theorem dictGet_dictSet_isSome {α : Type} (d : List (Char × α))
    (k0 k : Char) (v0 : α) (h : (dictGet d k).isSome) :
    (dictGet (dictSet d k0 v0) k).isSome := by
  by_cases hk : k = k0
  · subst hk
    rw [dictGet_dictSet_self]
    rfl
  · unfold dictSet
    by_cases hf : ((d.find? fun kv => kv.1 = k0).isSome : Prop)
    · rw [if_pos hf, dictGet_map_replace_ne k0 k v0 hk]
      exact h
    · rw [if_neg hf]
      obtain ⟨c, hc⟩ := Option.isSome_iff_exists.mp h
      rw [dictGet_append_left k c _ d hc]
      rfl

/-- Every key written during the fold can be looked up afterwards. -/
theorem dictGet_fold_isSome {α : Type} :
    ∀ (entries : List (Char × α)) (d0 : List (Char × α)) (k : Char),
      (k ∈ entries.map Prod.fst ∨ (dictGet d0 k).isSome) →
      (dictGet (entries.foldl (fun d kv => dictSet d kv.1 kv.2) d0)
        k).isSome := by
  intro entries
  induction entries with
  | nil =>
    intro d0 k h
    rcases h with h | h
    · simp at h
    · exact h
  | cons e es ih =>
    intro d0 k h
    simp only [List.foldl_cons]
    rcases h with h | h
    · simp only [List.map_cons, List.mem_cons] at h
      rcases h with h | h2
      · exact ih (dictSet d0 e.1 e.2) k
          (Or.inr (by subst h; rw [dictGet_dictSet_self]; rfl))
      · exact ih _ k (Or.inl h2)
    · exact ih _ k (Or.inr (dictGet_dictSet_isSome d0 e.1 k e.2 h))

/-! ### `uniqueSymbols` collects exactly the text's symbols -/

theorem mem_uniqueSymbols_aux :
    ∀ (l acc : List Char) (x : Char),
      x ∈ l.foldl (fun acc c => if c ∈ acc then acc else acc ++ [c]) acc ↔
        x ∈ acc ∨ x ∈ l := by
  intro l
  induction l with
  | nil => intro acc x; simp
  | cons c t ih =>
    intro acc x
    simp only [List.foldl_cons]
    rw [ih]
    by_cases hc : c ∈ acc
    · rw [if_pos hc]
      simp only [List.mem_cons]
      constructor
      · rintro (h | h)
        · exact Or.inl h
        · exact Or.inr (Or.inr h)
      · rintro (h | h | h)
        · exact Or.inl h
        · exact Or.inl (h ▸ hc)
        · exact Or.inr h
    · rw [if_neg hc]
      simp only [List.mem_append, List.mem_cons, List.not_mem_nil, or_false]
      constructor
      · rintro ((h | h) | h)
        · exact Or.inl h
        · exact Or.inr (Or.inl h)
        · exact Or.inr (Or.inr h)
      · rintro (h | h | h)
        · exact Or.inl (Or.inl h)
        · exact Or.inl (Or.inr h)
        · exact Or.inr h

theorem mem_uniqueSymbols (l : List Char) (x : Char) :
    x ∈ uniqueSymbols l ↔ x ∈ l := by
  unfold uniqueSymbols
  rw [mem_uniqueSymbols_aux]
  simp

/-! ### Encoding then decoding any text whose symbols are all in the table -/

theorem huffman_encode_decode (root : HuffmanNode)
    (hroot : root.symbol = none) :
    ∀ (text : List Char),
      (∀ ch ∈ text,
        (dictGet ((traverse root []).foldl
          (fun d kv => dictSet d kv.1 kv.2) []) ch).isSome) →
      ∃ bits,
        huffman_encode text
          ((traverse root []).foldl (fun d kv => dictSet d kv.1 kv.2) []) =
          some bits ∧
        decodeLoop root bits root = some (text, root) := by
  intro text
  induction text with
  | nil => intro _; exact ⟨[], rfl, rfl⟩
  | cons ch rest ih =>
    intro hall
    obtain ⟨bits', he', hd'⟩ := ih fun c hc => hall c (by simp [hc])
    have hsome := hall ch (by simp)
    obtain ⟨c, hc⟩ := Option.isSome_iff_exists.mp hsome
    have hmem : (ch, c) ∈ traverse root [] := by
      rcases dictGet_fold_mem _ [] ch c hc with h | h
      · exact h
      · simp [dictGet] at h
    obtain ⟨d, hd, hpath⟩ :=
      traverse_mem_path root [] ch c hmem (Or.inr hroot)
    simp only [List.nil_append] at hd
    subst hd
    refine ⟨c ++ bits', ?_, ?_⟩
    · simp only [huffman_encode, hc, he']
      rfl
    · rw [decodeLoop_path root c root ch bits' hpath hroot, hd']
      rfl

/-- C1: for every non-empty source text `T`, Huffman-decoding the
Huffman-encoding of `T` with the code table and tree built from `T`'s own
probability distribution returns exactly `T` (and the encoding itself
succeeds: every symbol of `T` has a code). -/
theorem huffman_roundtrip (T : List Char) (hT : T ≠ []) :
    (huffman_encode T (build_huffman_codes
        (build_huffman_tree (compute_symbol_probabilities T)))).bind
      (fun bits => huffman_decode bits
        (build_huffman_tree (compute_symbol_probabilities T))) = some T := by
  have hPne : compute_symbol_probabilities T ≠ [] := by
    simp only [compute_symbol_probabilities, if_neg hT]
    have : T.head? ≠ none := by
      cases T with
      | nil => exact absurd rfl hT
      | cons c t => simp
    intro h
    rw [List.map_eq_nil_iff] at h
    obtain ⟨c, t, rfl⟩ := List.exists_cons_of_ne_nil hT
    have : c ∈ uniqueSymbols (c :: t) := (mem_uniqueSymbols ..).mpr (by simp)
    rw [h] at this
    simp at this
  obtain ⟨root, hroot, hsym, hsyms⟩ := build_huffman_tree_spec _ hPne
  rw [hroot]
  simp only [build_huffman_codes]
  have hkeys : (compute_symbol_probabilities T).map Prod.fst =
      uniqueSymbols T := by
    simp [compute_symbol_probabilities, if_neg hT, Function.comp_def]
  have hall : ∀ ch ∈ T,
      (dictGet ((traverse root []).foldl
        (fun d kv => dictSet d kv.1 kv.2) []) ch).isSome := by
    intro ch hch
    refine dictGet_fold_isSome _ [] ch (Or.inl ?_)
    rw [traverse_map_fst]
    refine hsyms.mem_iff.mpr ?_
    rw [hkeys]
    exact (mem_uniqueSymbols ..).mpr hch
  obtain ⟨bits, he, hd⟩ := huffman_encode_decode root hsym T hall
  rw [he]
  simp only [Option.some_bind, huffman_decode, hd]
  rfl

theorem huffman_roundtrip_witness :
    (huffman_encode ['a', 'a', 'a', 'b'] (build_huffman_codes
        (build_huffman_tree
          (compute_symbol_probabilities ['a', 'a', 'a', 'b'])))).bind
      (fun bits => huffman_decode bits
        (build_huffman_tree
          (compute_symbol_probabilities ['a', 'a', 'a', 'b']))) =
      some ['a', 'a', 'a', 'b'] :=
  huffman_roundtrip ['a', 'a', 'a', 'b'] (by decide)

end InfoProj
